import Mathlib

/-!
Verification of the langact repository: a shallow embedding of its
UI-tree walker, action extractor, reindexing scheduler, command resolver
and registration context, with theorems settling the frozen claims.

Strings are modelled with Lean `String` (a wrapper around `List Char`),
and the JavaScript string operations used by the code (trim, toLowerCase,
split on whitespace, includes, replace, template interpolation of
numbers) are defined explicitly below on character lists so that all
definitions compute by kernel reduction.
-/

namespace Langact

/-! ### JavaScript string primitives -/

/-- Model of `String(n)` / template interpolation of a non-negative
integer: little-endian decimal digits, fuel-based so it reduces in the
kernel.  `digitsLE fuel n` is the little-endian digit list of `n`
provided `n ≤ fuel`. -/
def digitsLE (fuel n : Nat) : List Nat :=
  match fuel with
  | 0 => []
  | fuel' + 1 => if n < 10 then [n] else n % 10 :: digitsLE fuel' (n / 10)

/-- Decimal digit to its character. -/
def digitToChar (d : Nat) : Char := Char.ofNat (48 + d)

/-- Decimal rendering of a natural number, as JavaScript renders a
non-negative number inside a template literal. -/
def jsNatString (n : Nat) : String :=
  String.mk (((digitsLE (n + 1) n).reverse).map digitToChar)

/-- Value of a little-endian digit list. -/
def valLE (ds : List Nat) : Nat := ds.foldr (fun d acc => d + 10 * acc) 0

theorem valLE_digitsLE : ∀ (fuel n : Nat), n ≤ fuel → valLE (digitsLE (fuel + 1) n) = n := by
  intro fuel
  induction fuel with
  | zero =>
    intro n hn
    interval_cases n
    simp [digitsLE, valLE]
  | succ fuel ih =>
    intro n hn
    show valLE (digitsLE (fuel + 1 + 1) n) = n
    rw [digitsLE]
    by_cases h : n < 10
    · simp [h, valLE]
    · simp only [h, if_false]
      have hdiv : n / 10 ≤ fuel := by
        have h1 : n / 10 < n := Nat.div_lt_self (by omega) (by omega)
        omega
      have := ih (n / 10) hdiv
      simp only [valLE, List.foldr] at this ⊢
      rw [this]
      omega

theorem digitsLE_lt_ten : ∀ (fuel n : Nat), n ≤ fuel → ∀ d ∈ digitsLE (fuel + 1) n, d < 10 := by
  intro fuel
  induction fuel with
  | zero =>
    intro n hn
    interval_cases n
    simp [digitsLE]
  | succ fuel ih =>
    intro n hn d hd
    rw [digitsLE] at hd
    by_cases h : n < 10
    · simp [h] at hd; omega
    · simp only [h, if_false, List.mem_cons] at hd
      rcases hd with h1 | h1
      · omega
      · exact ih (n / 10) (by
          have h1 : n / 10 < n := Nat.div_lt_self (by omega) (by omega)
          omega) d h1

theorem digitToChar_inj : ∀ d1 < 10, ∀ d2 < 10, digitToChar d1 = digitToChar d2 → d1 = d2 := by
  decide

theorem map_digitToChar_inj :
    ∀ (l1 l2 : List Nat), (∀ d ∈ l1, d < 10) → (∀ d ∈ l2, d < 10) →
      l1.map digitToChar = l2.map digitToChar → l1 = l2 := by
  intro l1
  induction l1 with
  | nil => intro l2 _ _ h; cases l2 <;> simp_all
  | cons a l ih =>
    intro l2 h1 h2 h
    cases l2 with
    | nil => simp at h
    | cons b l2 =>
      simp only [List.map_cons, List.cons.injEq] at h
      have ha : a = b := digitToChar_inj a (h1 a (by simp)) b (h2 b (by simp)) h.1
      have : l = l2 := ih l2 (fun d hd => h1 d (by simp [hd])) (fun d hd => h2 d (by simp [hd])) h.2
      simp [ha, this]

theorem jsNatString_inj : ∀ (m n : Nat), jsNatString m = jsNatString n → m = n := by
  intro m n h
  unfold jsNatString at h
  have h2 : (digitsLE (m + 1) m).reverse.map digitToChar
      = (digitsLE (n + 1) n).reverse.map digitToChar := by
    injection h
  have h3 : (digitsLE (m + 1) m).reverse = (digitsLE (n + 1) n).reverse :=
    map_digitToChar_inj _ _
      (fun d hd => digitsLE_lt_ten m m le_rfl d (List.mem_reverse.mp hd))
      (fun d hd => digitsLE_lt_ten n n le_rfl d (List.mem_reverse.mp hd)) h2
  have h4 : digitsLE (m + 1) m = digitsLE (n + 1) n := List.reverse_injective h3
  have := congrArg valLE h4
  rwa [valLE_digitsLE m m le_rfl, valLE_digitsLE n n le_rfl] at this

/-- JavaScript `String.prototype.trim`: drop whitespace from both ends. -/
def jsTrim (s : String) : String :=
  String.mk (((s.data.dropWhile Char.isWhitespace).reverse.dropWhile Char.isWhitespace).reverse)

/-- JavaScript `String.prototype.toLowerCase` (ASCII model). -/
def jsToLower (s : String) : String := String.mk (s.data.map Char.toLower)

/-- Whether `pat` occurs at the start of `cs`. -/
def beginsWithL : List Char → List Char → Bool
  | _, [] => true
  | [], _ :: _ => false
  | a :: as, b :: bs => a == b && beginsWithL as bs

/-- JavaScript `String.prototype.startsWith`. -/
def jsStartsWith (s pat : String) : Bool := beginsWithL s.data pat.data

/-- JavaScript `String.prototype.includes`: substring containment (every
string contains the empty string). -/
def jsIncludes (hay sub : String) : Bool :=
  (List.range (hay.data.length + 1)).any (fun i => beginsWithL (hay.data.drop i) sub.data)

/-- State machine for `split(/\s+/)`: `cur` is the token being built
(reversed), `inWs` whether we are inside a whitespace run that has
already flushed a token. -/
def wsSplitGo : List Char → List Char → Bool → List (List Char)
  | [], cur, _ => [cur.reverse]
  | c :: rest, cur, inWs =>
    if c.isWhitespace then
      if inWs then wsSplitGo rest [] true
      else cur.reverse :: wsSplitGo rest [] true
    else wsSplitGo rest (c :: cur) false

/-- JavaScript `split(/\s+/)`: splits at maximal whitespace runs; a
leading run contributes a leading empty token and a trailing run a
trailing empty token, exactly as in JavaScript. -/
def jsSplitWS (s : String) : List String :=
  (wsSplitGo s.data [] false).map String.mk

/-- JavaScript `replace(/\"/g, "")`: remove every double-quote character. -/
def removeDQuotes (s : String) : String :=
  String.mk (s.data.filter (fun c => !(c == Char.ofNat 34)))

/-- JavaScript `Array.prototype.join(sep)`. -/
def joinSep (sep : String) : List String → String
  | [] => ""
  | h :: t => t.foldl (fun acc x => acc ++ sep ++ x) h

/-- JavaScript `a || b` on strings: empty strings are falsy. -/
def jsOrStr (a b : String) : String := if a = "" then b else a

/-! ### String-keyed maps

JavaScript objects and `Map`s are modelled as association lists in
property insertion order; `set` of an existing key overwrites in place,
`set` of a new key appends. -/

/-- Keyed read: `none` models `undefined`. -/
def assocGet {α : Type} (m : List (String × α)) (k : String) : Option α :=
  (m.find? (fun kv => kv.1 == k)).map (fun kv => kv.2)

/-- Keyed write. -/
def assocSet {α : Type} (m : List (String × α)) (k : String) (v : α) : List (String × α) :=
  if m.any (fun kv => kv.1 == k) then
    m.map (fun kv => if kv.1 == k then (k, v) else kv)
  else m ++ [(k, v)]

/-- Keyed removal. -/
def assocDelete {α : Type} (m : List (String × α)) (k : String) : List (String × α) :=
  m.filter (fun kv => !(kv.1 == k))

theorem assocGet_nil {α : Type} (k : String) : assocGet ([] : List (String × α)) k = none := rfl

theorem assocGet_cons {α : Type} (a : String × α) (l : List (String × α)) (k : String) :
    assocGet (a :: l) k = if a.1 == k then some a.2 else assocGet l k := by
  by_cases h : a.1 == k
  · simp [assocGet, List.find?_cons_of_pos _ h, h]
  · have h' : ¬ (a.1 == k) = true := h
    simp [assocGet, List.find?_cons_of_neg _ h', h]

theorem assocGet_append {α : Type} (l1 l2 : List (String × α)) (k : String) :
    assocGet (l1 ++ l2) k =
      match assocGet l1 k with
      | some v => some v
      | none => assocGet l2 k := by
  induction l1 with
  | nil => simp [assocGet_nil]
  | cons a l ih =>
    rw [List.cons_append, assocGet_cons, assocGet_cons]
    by_cases h : a.1 == k
    · simp [h]
    · simp only [h, if_false]
      exact ih

theorem assocGet_map_overwrite {α : Type} (l : List (String × α)) (k k' : String) (v : α)
    (hne : k' ≠ k) :
    assocGet (l.map (fun kv => if kv.1 == k then (k, v) else kv)) k' = assocGet l k' := by
  induction l with
  | nil => rfl
  | cons a l ih =>
    rw [List.map_cons, assocGet_cons, assocGet_cons]
    by_cases h : a.1 == k
    · have hkk : (k == k') = false := by
        simp only [beq_eq_false_iff_ne, ne_eq]
        exact fun hh => hne hh.symm
      have hak : (a.1 == k') = false := by
        have : a.1 = k := by simpa using h
        simp only [beq_eq_false_iff_ne, ne_eq, this]
        exact fun hh => hne hh.symm
      simp only [h, if_true, hkk, hak, if_false, Bool.false_eq_true]
      exact ih
    · simp only [h, if_false, Bool.false_eq_true]
      by_cases h2 : a.1 == k'
      · simp [h2]
      · simp only [h2, if_false, Bool.false_eq_true]
        exact ih

theorem assocGet_assocSet_self {α : Type} (m : List (String × α)) (k : String) (v : α) :
    assocGet (assocSet m k v) k = some v := by
  unfold assocSet
  by_cases h : m.any (fun kv => kv.1 == k)
  · simp only [if_pos h]
    induction m with
    | nil => simp at h
    | cons a l ih =>
      rw [List.map_cons, assocGet_cons]
      by_cases ha : a.1 == k
      · simp [ha]
      · have h' : l.any (fun kv => kv.1 == k) := by
          simp only [List.any_cons, ha, Bool.false_or] at h
          exact h
        simpa [ha] using ih h'
  · simp only [if_neg h]
    rw [assocGet_append]
    have hnone : assocGet m k = none := by
      induction m with
      | nil => rfl
      | cons a l ih =>
        simp only [List.any_cons, Bool.or_eq_true] at h
        push_neg at h
        have ha : (a.1 == k) = false := by
          cases hb : (a.1 == k) with
          | false => rfl
          | true => exact absurd hb h.1
        rw [assocGet_cons, ha]
        simp only [Bool.false_eq_true, if_false]
        exact ih (by simpa [List.any_eq_true] using h.2)
    rw [hnone]
    simp [assocGet_cons]

theorem assocGet_assocSet_other {α : Type} (m : List (String × α)) (k k' : String) (v : α)
    (hne : k' ≠ k) : assocGet (assocSet m k v) k' = assocGet m k' := by
  unfold assocSet
  by_cases h : m.any (fun kv => kv.1 == k)
  · simp only [if_pos h]
    exact assocGet_map_overwrite m k k' v hne
  · simp only [if_neg h]
    rw [assocGet_append]
    have h1 : assocGet [(k, v)] k' = none := by
      rw [assocGet_cons]
      have hf : (k == k') = false := by
        simp only [beq_eq_false_iff_ne, ne_eq]
        exact fun hh => hne hh.symm
      simp [hf, assocGet_nil]
    cases h2 : assocGet m k' with
    | some w => simp
    | none => simpa using h1

theorem mem_assocSet_of_ne {α : Type} (m : List (String × α)) (k : String) (v : α)
    (p : String × α) (hp : p ∈ m) (hne : p.1 ≠ k) : p ∈ assocSet m k v := by
  unfold assocSet
  by_cases h : m.any (fun kv => kv.1 == k)
  · simp only [if_pos h]
    have : (fun kv => if kv.1 == k then (k, v) else kv) p = p := by
      have : (p.1 == k) = false := by simpa [beq_eq_false_iff_ne] using hne
      simp [this]
    rw [← this]
    exact List.mem_map_of_mem _ hp
  · simp only [if_neg h]
    exact List.mem_append_left _ hp

theorem assocDelete_absent {α : Type} (m : List (String × α)) (k : String)
    (h : assocGet m k = none) : assocDelete m k = m := by
  induction m with
  | nil => rfl
  | cons a l ih =>
    rw [assocGet_cons] at h
    by_cases ha : a.1 == k
    · simp [ha] at h
    · unfold assocDelete
      rw [List.filter_cons]
      simp only [ha, Bool.not_false, if_true, Bool.false_eq_true]
      have hl : assocGet l k = none := by simpa [ha] using h
      have := ih hl
      unfold assocDelete at this
      rw [this]

/-! ### Raw prop values (src/langact/Langact.tsx)

A raw React prop value as observed by the walker: a primitive, a
function (whose observable attributes used by the code are its `name`
and `toString()` source text), or an object (whose observable attributes
used are its constructor name, `""` when it has none, and its key
list). -/

inductive PropVal where
  | pstr (s : String)
  | pnum (n : Int)
  | pbool (b : Bool)
  | pnull
  | pfunc (name : String) (src : String)
  | pobj (ctor : String) (keys : List String)
deriving DecidableEq

/-- A JavaScript object of props, in property insertion order. -/
abbrev Props := List (String × PropVal)

/-- JavaScript property read `ps[k]`: `none` models `undefined`. -/
def lookupProp (ps : Props) (k : String) : Option PropVal := assocGet ps k

/-- JavaScript truthiness of a prop value. -/
def truthy : PropVal → Bool
  | .pstr s => !(s == "")
  | .pnum n => !(n == 0)
  | .pbool b => b
  | .pnull => false
  | .pfunc _ _ => true
  | .pobj _ _ => true

/-- JavaScript template-literal interpolation of a prop value. -/
def jsPropString : PropVal → String
  | .pstr s => s
  | .pnum n => if n < 0 then "-" ++ jsNatString (-n).toNat else jsNatString n.toNat
  | .pbool b => if b then "true" else "false"
  | .pnull => "null"
  | .pfunc _ src => src
  | .pobj _ _ => "[object Object]"

/-! ### Element types and display names

The `elementType` of a fiber node: a string tag, a function component
(with possibly-empty `displayName` and `name`, the empty string
modelling an absent or falsy field), an object wrapper whose
`render || type` resolves to `some (displayName, name)` or nothing, or
none of these (`undefined`, `null`, ...). -/

inductive ElemType where
  | etString (tag : String)
  | etFunc (displayName : String) (name : String)
  | etObj (render : Option (String × String))
  | etNone
deriving DecidableEq

/-- First non-empty of two strings, else the fallback
(`a || b || fallback` in JavaScript). -/
def firstNonEmpty2 (a b fallback : String) : String :=
  if a ≠ "" then a else if b ≠ "" then b else fallback

/-- Display-name resolution of `fiberToComponentTree` (the Tree Walker):
string tag, then function `displayName || name || "Component"`, then for
object wrappers `render || type` with fallback `"ComplexComponent"`,
else `"Unknown"`. -/
def displayNameW : ElemType → String
  | .etString tag => tag
  | .etFunc d n => firstNonEmpty2 d n "Component"
  | .etObj (some (d, n)) => firstNonEmpty2 d n "ComplexComponent"
  | .etObj none => "Unknown"
  | .etNone => "Unknown"

/-- Display-name resolution of `createActionRegistry` (the Action
Extractor): identical except that it has no object-wrapper branch, so
object element types resolve to `"Unknown"`. -/
def displayNameX : ElemType → String
  | .etString tag => tag
  | .etFunc d n => firstNonEmpty2 d n "Component"
  | .etObj _ => "Unknown"
  | .etNone => "Unknown"

/-! ### The raw fiber tree

A child/sibling-linked tree; `nil` models a null/absent node pointer.
Each node carries the three optional prop sources the code inspects
(`props`, `memoizedProps`, `pendingProps`; `none` models an absent
field, `some []` a present but empty object). -/

inductive Fiber where
  | nil
  | node (elementType : ElemType) (props memoizedProps pendingProps : Option Props)
      (child sibling : Fiber)
deriving DecidableEq

/-- Prop-source selection
`fiberNode.props || fiberNode.memoizedProps || fiberNode.pendingProps || {}`:
a present object is truthy in JavaScript even when empty, so this takes
the first present set. -/
def propsSourceOf (p mp pp : Option Props) : Props :=
  match p with
  | some l => l
  | none =>
    match mp with
    | some l => l
    | none =>
      match pp with
      | some l => l
      | none => []

/-! ### The Tree Walker (fiberToComponentTree) -/

/-- Normalized prop value in a `ComponentTree`: a primitive kept as-is,
a function descriptor `\x7b__type:"function", __name, __toString\x7d`,
or an object descriptor `\x7b__type:"object", __constructor, __keys\x7d`. -/
inductive NormVal where
  | vstr (s : String)
  | vnum (n : Int)
  | vbool (b : Bool)
  | vnull
  | funcDesc (name : String) (src : String)
  | objDesc (ctor : String) (keys : List String)
deriving DecidableEq

/-- Normalization of one prop value, from the walker's copy loop:
functions become descriptors carrying `name || "anonymous"` and the full
source text, objects become descriptors carrying
`constructor?.name || "Object"` and the key list, primitives are stored
as-is. -/
def normalizeProp : PropVal → NormVal
  | .pfunc name src => .funcDesc (jsOrStr name "anonymous") src
  | .pobj ctor keys => .objDesc (jsOrStr ctor "Object") keys
  | .pstr s => .vstr s
  | .pnum n => .vnum n
  | .pbool b => .vbool b
  | .pnull => .vnull

/-- The walker's prop-copy loop over the selected prop source. -/
def extractProps (ps : Props) : List (String × NormVal) :=
  ps.map (fun kv => (kv.1, normalizeProp kv.2))

/-- Pruned component tree produced by the walker. -/
inductive ComponentTree where
  | mk (name : String) (props : List (String × NormVal)) (children : List ComponentTree)

def ComponentTree.name : ComponentTree → String
  | .mk n _ _ => n

def ComponentTree.props : ComponentTree → List (String × NormVal)
  | .mk _ p _ => p

def ComponentTree.children : ComponentTree → List ComponentTree
  | .mk _ _ c => c

/-- Embedding of the walker's `while` loop over a child→sibling chain:
the list of converted trees of the chain nodes, in chain order.  The
source pushes the recursive conversion of each chain node guarded by
`if (childComponent)`; the conversion is null exactly for a null input
and every chain node is non-null, so the guard always passes and each
chain node contributes exactly one entry, built here inline. -/
def fiberForest : Fiber → List ComponentTree
  | .nil => []
  | .node et p mp pp child sib =>
      ComponentTree.mk (displayNameW et) (extractProps (propsSourceOf p mp pp))
        (fiberForest child) :: fiberForest sib

/-- Embedding of `fiberToComponentTree`: null input yields null,
otherwise the node's display name, normalized props from the selected
prop source, and the children assembled from its child pointer's sibling
chain (the top-level node's own sibling is ignored, as in the source). -/
def fiberToComponentTree : Fiber → Option ComponentTree
  | .nil => none
  | .node et p mp pp child _sib =>
      some (.mk (displayNameW et) (extractProps (propsSourceOf p mp pp)) (fiberForest child))

/-- Number of nodes reachable from a node pointer via the sibling chain. -/
def chainLength : Fiber → Nat
  | .nil => 0
  | .node _ _ _ _ _ sib => 1 + chainLength sib

/-! ### The Action Extractor (createActionRegistry) -/

/-- The `identifyingProps` capture: whichever of
`id, num, index, value, name, className` are present in the prop
source, verbatim, in that order. -/
def optEntry (ps : Props) (k : String) : Props :=
  match lookupProp ps k with
  | some v => [(k, v)]
  | none => []

def identifyingPropsOf (ps : Props) : Props :=
  optEntry ps "id" ++ (optEntry ps "num" ++ (optEntry ps "index" ++
    (optEntry ps "value" ++ (optEntry ps "name" ++ optEntry ps "className"))))

/-- The semantic-identifier derivation from `createActionRegistry`,
branches below `id` in the source's `if/else` cascade: the `key` check
(a truthy `identifyingProps.key`), then repeated-instance, then empty. -/
def semanticIdKeyBranch (ip : Props) (instanceNumber : Nat) : String :=
  match lookupProp ip "key" with
  | some v =>
      if truthy v then "[key=" ++ jsPropString v ++ "]"
      else if instanceNumber > 0 then "[instance=" ++ jsNatString instanceNumber ++ "]" else ""
  | none =>
      if instanceNumber > 0 then "[instance=" ++ jsNatString instanceNumber ++ "]" else ""

/-- The full semantic-identifier cascade: a defined `num`, else a
defined `index`, else a truthy `id`, else the `key` branch above.
`num` and `index` are tested with `!== undefined`, `id` and `key` with
JavaScript truthiness, exactly as in the source. -/
def semanticIdOf (ip : Props) (instanceNumber : Nat) : String :=
  match lookupProp ip "num" with
  | some v => "[num=" ++ jsPropString v ++ "]"
  | none =>
    match lookupProp ip "index" with
    | some v => "[index=" ++ jsPropString v ++ "]"
    | none =>
      match lookupProp ip "id" with
      | some v =>
          if truthy v then "[id=" ++ jsPropString v ++ "]"
          else semanticIdKeyBranch ip instanceNumber
      | none => semanticIdKeyBranch ip instanceNumber

/-- Instance-qualified path segment: the bare component name for the
first occurrence, `name[n]` for later occurrences. -/
def instanceIdentifier (componentName : String) (instanceNumber : Nat) : String :=
  if instanceNumber > 0 then componentName ++ "[" ++ jsNatString instanceNumber ++ "]"
  else componentName

/-- One entry of the action registry.  The bound handler reference is
modelled by its two observable attributes used downstream
(`execName = propValue.name`, `execSrc = propValue.toString()`); the
`metadata` fields of the source are `functionName = name || "anonymous"`
and `toString = execSrc`. -/
structure ActionEntry where
  id : String
  component : String
  event : String
  path : String
  semanticId : String
  identifyingProps : Props
  description : String
  execName : String
  execSrc : String
  metadataFunctionName : String
deriving DecidableEq

/-- The registry is a JavaScript object keyed by generated id, so an
association list in insertion order. -/
abbrev ActionRegistry := List (String × ActionEntry)

/-- Description synthesis:
`"<event> handler on <component>"`, then `" <semanticId>"` when the
semantic id is non-empty, then `" at <path>"`. -/
def mkDescription (propKey componentName sid pathStr : String) : String :=
  propKey ++ " handler on " ++ componentName ++
    (if sid = "" then "" else " " ++ sid) ++ " at " ++ pathStr

/-- Traversal state of `createActionRegistry`: the running action-id
counter, the per-(path-prefix,name) occurrence counts object, and the
registry built so far. -/
structure ExtractState where
  nextId : Nat
  counts : List (String × Nat)
  registry : ActionRegistry
deriving DecidableEq

/-- JavaScript object read used for `componentCounts`. -/
def countsGet (m : List (String × Nat)) (k : String) : Option Nat := assocGet m k

/-- JavaScript object write used for `componentCounts`. -/
def countsSet (m : List (String × Nat)) (k : String) (v : Nat) : List (String × Nat) :=
  assocSet m k v

/-- Generated action id `action_<n>`. -/
def actionIdName (n : Nat) : String := "action_" ++ jsNatString n

/-- The `Object.keys(propsSource).forEach` loop of the extractor: every
`on`-prefixed, function-valued prop appends one registry entry with a
freshly incremented id. -/
def extractActionsStep (componentName sid pathStr : String) (ip : Props)
    (acc : Nat × ActionRegistry) (kv : String × PropVal) : Nat × ActionRegistry :=
  match kv.2 with
  | .pfunc fname fsrc =>
      if jsStartsWith kv.1 "on" then
        let fid := actionIdName acc.1
        (acc.1 + 1,
          acc.2 ++ [(fid,
            ({ id := fid,
               component := componentName,
               event := kv.1,
               path := pathStr,
               semanticId := sid,
               identifyingProps := ip,
               description := mkDescription kv.1 componentName sid pathStr,
               execName := fname,
               execSrc := fsrc,
               metadataFunctionName := jsOrStr fname "anonymous" } : ActionEntry))])
      else acc
  | _ => acc

/-- Per-node body of `traverseAndExtractActions`, before the child loop:
occurrence counting, path extension, identifying props, semantic id and
the action-creation loop.  Returns the updated state and the extended
path the children are traversed with. -/
def processNode (et : ElemType) (p mp pp : Option Props) (path : List String)
    (st : ExtractState) : ExtractState × List String :=
  let componentName := displayNameX et
  let componentKey := joinSep ">" path ++ ">" ++ componentName
  let newCount := (countsGet st.counts componentKey).getD 0 + 1
  let counts := countsSet st.counts componentKey newCount
  let instanceNumber := newCount - 1
  let currentPath := path ++ [instanceIdentifier componentName instanceNumber]
  let ps := propsSourceOf p mp pp
  let ip := identifyingPropsOf ps
  let sid := semanticIdOf ip instanceNumber
  let pathStr := joinSep " > " currentPath
  let res := ps.foldl (extractActionsStep componentName sid pathStr ip) (st.nextId, st.registry)
  ({ nextId := res.1, counts := counts, registry := res.2 }, currentPath)

/-- Traversal over a sibling chain: each chain node is processed and its
children (reached through its child pointer) are traversed with the
extended path, exactly the recursion of `traverseAndExtractActions`
combined with its `while (child)` loop. -/
def extractChain : Fiber → List String → ExtractState → ExtractState
  | .nil, _, st => st
  | .node et p mp pp child sib, path, st =>
      let r := processNode et p mp pp path st
      extractChain sib path (extractChain child r.2 r.1)

/-- Embedding of `createActionRegistry`: counter and counts start fresh,
the root node is traversed with the empty path (its own sibling, never
visited by the source's top-level call, is replaced by nil). -/
def createActionRegistry (fiberNode : Fiber) : ActionRegistry :=
  (match fiberNode with
   | .nil => ({ nextId := 0, counts := [], registry := [] } : ExtractState)
   | .node et p mp pp child _sib =>
      extractChain (.node et p mp pp child .nil) [] { nextId := 0, counts := [], registry := [] }).registry

/-! ### Registration Context (src/langact/LangactContext.tsx)

The declared-action map is a JavaScript `Map`, modelled as an
association list in insertion order (`set` of an existing key keeps its
position, `set` of a new key appends). -/

/-- A declared action (`AiAction` in src/langact/types.ts); the
handler, a nullary procedure, is identified by the entry itself. -/
structure AiAction where
  id : String
  description : String
deriving DecidableEq

abbrev ActionMap := List (String × AiAction)

/-- JavaScript `Map.prototype.get`. -/
def mapGet (m : ActionMap) (k : String) : Option AiAction := assocGet m k

/-- JavaScript `Map.prototype.set`: overwrite in place when the key is
present, append otherwise. -/
def mapSet (m : ActionMap) (k : String) (v : AiAction) : ActionMap := assocSet m k v

/-- JavaScript `Map.prototype.delete` (observed through the resulting
map): removes the entry with the key, if any. -/
def mapDelete (m : ActionMap) (k : String) : ActionMap := assocDelete m k

/-- Embedding of `registerAction`: `new Map(prev).set(action.id, action)`. -/
def registerAction (m : ActionMap) (a : AiAction) : ActionMap :=
  mapSet m a.id a

/-- Embedding of `unregisterAction`: copy then `delete id`. -/
def unregisterAction (m : ActionMap) (id : String) : ActionMap :=
  mapDelete m id

/-! ### Command Resolver, local scoring strategy
(src/components/CommandBar.tsx, `findAndExecuteAction`) -/

/-- The CommandBar's two state fields touched by the local strategy. -/
structure LocalState where
  query : String
  status : String
deriving DecidableEq

/-- Status string `Sorry, I don't know how to do that.` (the apostrophe
written via its character code). -/
def dontKnowStatus : String :=
  "Sorry, I don" ++ (Char.ofNat 39).toString ++ "t know how to do that."

/-- Status string `Executing: "<description>"`. -/
def executingStatus (desc : String) : String :=
  "Executing: " ++ (Char.ofNat 34).toString ++ desc ++ (Char.ofNat 34).toString

/-- Score of one declared action: the number of query tokens occurring
as substrings of the lower-cased description (repeats counted). -/
def scoreOf (commandWords : List String) (a : AiAction) : Nat :=
  commandWords.countP (fun w => jsIncludes (jsToLower a.description) w)

/-- The loop body tracking the best action:
`if (currentScore > maxScore)` — strictly greater, so ties keep the
earlier action. -/
def bestStep (commandWords : List String) (acc : Option AiAction × Nat)
    (a : AiAction) : Option AiAction × Nat :=
  let currentScore := scoreOf commandWords a
  if currentScore > acc.2 then (some a, currentScore) else acc

/-- Embedding of `findAndExecuteAction`: blank command is a no-op;
otherwise the query is lower-cased and split on whitespace, the actions
are scanned with `bestStep` starting from `(null, 0)`, and on a match
the status shows the winner's description, the winner's handler is
invoked (returned as the second component) and the query is cleared; on
no match the fixed status is set and the query is left untouched. -/
def findAndExecuteAction (actions : List AiAction) (st : LocalState) :
    LocalState × Option AiAction :=
  if jsTrim st.query = "" then (st, none)
  else
    let commandWords := jsSplitWS (jsToLower st.query)
    let best := actions.foldl (bestStep commandWords) (none, 0)
    match best.1 with
    | some a => ({ query := "", status := executingStatus a.description }, some a)
    | none => ({ query := st.query, status := dontKnowStatus }, none)

/-! ### Command Resolver, remote strategy
(src/components/CommandBar.tsx of the LLM variant, `sendQueryToLLM`) -/

/-- A JSON value carried in the response's `parameters` array. -/
inductive JVal where
  | jstr (s : String)
  | jnum (n : Int)
  | jbool (b : Bool)
  | jnull
deriving DecidableEq

/-- The message content of the first choice of a successful response:
either it parses as a JSON object (with optional `actionId` and
`parameters` fields), or it does not parse and only its raw text is
available. -/
inductive LLMContent where
  | jsonOk (actionId : Option String) (params : Option (List JVal))
  | raw (s : String)

/-- Outcome of the fetch: non-2xx with a status text, a 2xx response
with (possibly missing) first-choice message content, or a thrown
network/JSON-body error. -/
inductive HttpResponse where
  | httpError (statusText : String)
  | ok (content : Option LLMContent)
  | networkError (err : String)

/-- Status messages set by `sendQueryToLLM`; each constructor is one
`setStatus` template of the source, carrying its interpolated data. -/
inductive RStatus where
  | idle
  | thinking
  | apiError (statusText : String)
  | executing (actionId : String) (params : List JVal)
  | execError (err : String)
  | noSuitable
  | invalidId
  | genericError (err : String)
deriving DecidableEq

/-- Action-id and parameter extraction: a parsed JSON object yields
`actionId || ""` and `parameters || []`; unparsable content falls back
to the trimmed raw text with every double quote removed and no
parameters; missing content leaves the initial `("", [])`. -/
def extractActionId : Option LLMContent → String × List JVal
  | some (.jsonOk aid ps) => (aid.getD "", ps.getD [])
  | some (.raw s) => (removeDQuotes (jsTrim s), [])
  | none => ("", [])

/-- A registry entry as the remote resolver consumes it: invoking the
bound handler with the parameter list either returns or throws. -/
structure RemoteEntry where
  run : List JVal → Except String Unit

abbrev RemoteRegistry := List (String × RemoteEntry)

/-- JavaScript object read `context.actionRegistry[actionId]`. -/
def lookupReg (registry : RemoteRegistry) (k : String) : Option RemoteEntry :=
  assocGet registry k

/-- The CommandBar state touched by the remote strategy. -/
structure RemoteState where
  query : String
  status : RStatus
  loading : Bool

/-- Embedding of `sendQueryToLLM` for one submission: a blank query is a
no-op; otherwise loading and a thinking status are set, then the
response is handled — non-2xx surfaces the status text, a thrown error
surfaces its message, and a successful response has its action id and
parameters extracted, the query cleared, and the id resolved: a
non-empty id other than `"none"` that is present in the registry is
executed (the second component reports the invocation; an invocation
error is caught and reported), the literal `"none"` reports no suitable
action, anything else reports an invalid action id.  Loading is cleared
on every path. -/
def sendQueryToLLM (registry : RemoteRegistry) (st : RemoteState)
    (resp : HttpResponse) : RemoteState × Option (String × List JVal) :=
  if jsTrim st.query = "" then (st, none)
  else
    let st1 : RemoteState := { st with loading := true, status := .thinking }
    match resp with
    | .httpError statusText =>
        ({ st1 with status := .apiError statusText, loading := false }, none)
    | .networkError e =>
        ({ st1 with status := .genericError e, loading := false }, none)
    | .ok content =>
        let ap := extractActionId content
        let aid := ap.1
        let ps := ap.2
        let st2 := { st1 with query := "" }
        if aid ≠ "" ∧ aid ≠ "none" ∧ (lookupReg registry aid).isSome then
          match lookupReg registry aid with
          | some entry =>
              match entry.run ps with
              | .ok _ =>
                  ({ st2 with status := .executing aid ps, loading := false }, some (aid, ps))
              | .error e =>
                  ({ st2 with status := .execError e, loading := false }, some (aid, ps))
          | none => ({ st2 with status := .invalidId, loading := false }, none)
        else if aid = "none" then
          ({ st2 with status := .noSuitable, loading := false }, none)
        else
          ({ st2 with status := .invalidId, loading := false }, none)

/-! ### Reindexing Scheduler (Langact component) -/

/-- One observed mutation record: an attribute change on an element with
the given tag name, a child-list change, or anything else. -/
inductive MutationRecord where
  | attrs (tagName : String)
  | childList
  | other
deriving DecidableEq

/-- Whether one mutation makes the observer callback schedule an update:
attribute changes only on INPUT/BUTTON/SELECT elements, child-list
changes always. -/
def mutationQualifies : MutationRecord → Bool
  | .attrs tag => tag == "INPUT" || tag == "BUTTON" || tag == "SELECT"
  | .childList => true
  | .other => false

/-- The observer callback's loop with early break: update iff some
record in the batch qualifies. -/
def shouldUpdateBatch (ms : List MutationRecord) : Bool :=
  ms.any mutationQualifies

/-- Scheduler timer state: `updateTimeoutRef` holds at most one pending
timeout, recorded by its absolute deadline. -/
structure SchedState where
  pending : Option Nat
deriving DecidableEq

/-- Embedding of `debouncedUpdate` called at time `now`: any pending
timeout is cleared and a single new one is armed 100ms ahead. -/
def debouncedUpdate (now : Nat) (_s : SchedState) : SchedState :=
  { pending := some (now + 100) }

/-- Timer semantics between events: if the pending deadline has passed
by time `t`, the pass fires (at its deadline) and the slot empties. -/
def fireBefore (t : Nat) (s : SchedState) : List Nat × SchedState :=
  match s.pending with
  | some d => if d ≤ t then ([d], { pending := none }) else ([], s)
  | none => ([], s)

/-- The observer callback at time `t` with a batch of records. -/
def observerCallback (t : Nat) (batch : List MutationRecord) (s : SchedState) : SchedState :=
  if shouldUpdateBatch batch then debouncedUpdate t s else s

/-- Discrete-event run: batches arrive at increasing times; pending
timers fire when their deadline precedes the next arrival, and after the
last arrival any pending timer fires.  Returns the times of the reindex
passes. -/
def simulateBatches : List (Nat × List MutationRecord) → SchedState → List Nat
  | [], s => s.pending.toList
  | (t, batch) :: rest, s =>
      let fs := fireBefore t s
      fs.1 ++ simulateBatches rest (observerCallback t batch fs.2)

/-! ### Spec-side definition used to compare against the code for the
prop-source selection claim -/

/-- Modelled from the spec's words (for refinement comparison only):
"inspect, in priority order, whichever of the node's
current/committed/pending prop sets is available, take the first
non-empty one". -/
def firstNonEmptyPropsSource (p mp pp : Option Props) : Props :=
  (([p, mp, pp].filterMap id).find? (fun l => !l.isEmpty)).getD []

/-! ### Concrete fixtures used by witnesses and counterexamples -/

/-- A root node named App with two sibling children both named Row, each
carrying an `onClick` handler. -/
def rowFiber : Fiber :=
  .node (.etFunc "" "App") none (some []) none
    (.node (.etFunc "" "Row") none (some [("onClick", .pfunc "doIt" "() => 0")]) none .nil
      (.node (.etFunc "" "Row") none (some [("onClick", .pfunc "doIt" "() => 0")]) none .nil .nil))
    .nil

/-- A single node carrying a `key` prop and an `onClick` handler and no
other identifying props. -/
def keyFiber : Fiber :=
  .node (.etFunc "" "Item")
    (some [("key", .pstr "k1"), ("onClick", .pfunc "f" "() => 0")]) none none .nil .nil

/-- A node whose `props` set is present but empty while its
`memoizedProps` set carries a handler. -/
def emptyPropsFiber : Fiber :=
  .node (.etString "div") (some [])
    (some [("onClick", .pfunc "handleClick" "() => 0")]) none .nil .nil

/-! ### Claim C5 — Tree Walker absence and child count -/

/-- The sibling chain reachable from a node pointer, each node taken
with its own subtree (sibling pointer cleared, as it does not take part
in the node's own conversion). -/
def chainFibers : Fiber → List Fiber
  | .nil => []
  | .node et p mp pp child sib => Fiber.node et p mp pp child .nil :: chainFibers sib

theorem fiberForest_length (f : Fiber) : (fiberForest f).length = chainLength f := by
  induction f with
  | nil => rfl
  | node et p mp pp child sib ihc ihs =>
    simp only [fiberForest, chainLength, List.length_cons, ihs]
    omega

theorem fiberForest_eq_filterMap (f : Fiber) :
    fiberForest f = (chainFibers f).filterMap fiberToComponentTree := by
  induction f with
  | nil => rfl
  | node et p mp pp child sib ihc ihs =>
    simp only [fiberForest, chainFibers, List.filterMap_cons, fiberToComponentTree, ihs]

/-- C5: the Tree Walker's result is absent if and only if the input is
absent (absent input raises no error), and for a present input the
children list has exactly one entry per node reachable from the child
pointer via the next-sibling chain, in chain order (the children are the
chain nodes' conversions in order, and their count is the chain length). -/
theorem c5_walker_absence_and_child_count :
    (∀ f : Fiber, fiberToComponentTree f = none ↔ f = Fiber.nil) ∧
    (∀ et p mp pp child sib,
      (fiberToComponentTree (Fiber.node et p mp pp child sib)).map
        (fun t => t.children.length) = some (chainLength child)) ∧
    (∀ f : Fiber, fiberForest f = (chainFibers f).filterMap fiberToComponentTree) := by
  refine ⟨?_, ?_, fiberForest_eq_filterMap⟩
  · intro f
    cases f with
    | nil => simp [fiberToComponentTree]
    | node et p mp pp child sib => simp [fiberToComponentTree]
  · intro et p mp pp child sib
    simp [fiberToComponentTree, ComponentTree.children, fiberForest_length]

/-! ### Claim C4 — Tree Walker prop extraction (corrected) -/

/-- C4 counterexample: on a node whose `props` object is present but
empty while `memoizedProps` is non-empty, the walker extracts the empty
`props` set — not the first non-empty prop set the claim requires, which
here is the `memoizedProps` one whose extraction is non-empty. -/
theorem c4_first_nonempty_counterexample :
    (fiberToComponentTree emptyPropsFiber).map ComponentTree.props = some [] ∧
    firstNonEmptyPropsSource (some []) (some [("onClick", PropVal.pfunc "handleClick" "() => 0")])
        none = [("onClick", PropVal.pfunc "handleClick" "() => 0")] ∧
    extractProps [("onClick", PropVal.pfunc "handleClick" "() => 0")] ≠ ([] : List (String × NormVal)) := by
  refine ⟨rfl, rfl, ?_⟩
  decide

/-- C4 (amended): the walker selects the first present
(non-null/undefined) prop set among current/committed/pending — even
when that set is empty — and never fails on a function- or object-valued
prop: its props are exactly the normalization of the selected set, where
every function value becomes a descriptor carrying the function's
(defaulted) name and full source text and every object value becomes a
descriptor carrying only a type name and its key list. -/
theorem c4_prop_extraction :
    (∀ (l : Props) (mp pp : Option Props), propsSourceOf (some l) mp pp = l) ∧
    (∀ (l : Props) (pp : Option Props), propsSourceOf none (some l) pp = l) ∧
    (∀ l : Props, propsSourceOf none none (some l) = l) ∧
    propsSourceOf none none none = [] ∧
    (∀ et p mp pp child sib,
      (fiberToComponentTree (Fiber.node et p mp pp child sib)).map ComponentTree.props
        = some (extractProps (propsSourceOf p mp pp))) ∧
    (∀ (ps : Props) (k name src : String),
      (k, PropVal.pfunc name src) ∈ ps →
        (k, NormVal.funcDesc (jsOrStr name "anonymous") src) ∈ extractProps ps) ∧
    (∀ (ps : Props) (k ctor : String) (keys : List String),
      (k, PropVal.pobj ctor keys) ∈ ps →
        (k, NormVal.objDesc (jsOrStr ctor "Object") keys) ∈ extractProps ps) := by
  refine ⟨fun _ _ _ => rfl, fun _ _ => rfl, fun _ => rfl, rfl, ?_, ?_, ?_⟩
  · intro et p mp pp child sib
    rfl
  · intro ps k name src h
    have := List.mem_map_of_mem (fun kv => (kv.1, normalizeProp kv.2)) h
    simpa [extractProps, normalizeProp] using this
  · intro ps k ctor keys h
    have := List.mem_map_of_mem (fun kv => (kv.1, normalizeProp kv.2)) h
    simpa [extractProps, normalizeProp] using this

/-- C4 witness: the amended theorem applied at concrete inputs — a
function prop and an object prop normalize to their descriptors inside a
concrete prop list. -/
theorem c4_prop_extraction_witness :
    ("onClick", NormVal.funcDesc (jsOrStr "f" "anonymous") "() => 0")
        ∈ extractProps [("onClick", PropVal.pfunc "f" "() => 0"), ("style", PropVal.pobj "Object" ["color"])] ∧
    ("style", NormVal.objDesc (jsOrStr "Object" "Object") ["color"])
        ∈ extractProps [("onClick", PropVal.pfunc "f" "() => 0"), ("style", PropVal.pobj "Object" ["color"])] :=
  ⟨c4_prop_extraction.2.2.2.2.2.1 _ "onClick" "f" "() => 0" (by decide),
   c4_prop_extraction.2.2.2.2.2.2 _ "style" "Object" ["color"] (by decide)⟩

/-! ### Claim C3 — semanticId precedence (corrected) -/

theorem assocGet_append_of_none {α : Type} {l1 : List (String × α)} {k : String}
    (l2 : List (String × α)) (h : assocGet l1 k = none) :
    assocGet (l1 ++ l2) k = assocGet l2 k := by
  rw [assocGet_append, h]

theorem assocGet_append_of_some {α : Type} {l1 : List (String × α)} {k : String} {v : α}
    (l2 : List (String × α)) (h : assocGet l1 k = some v) :
    assocGet (l1 ++ l2) k = some v := by
  rw [assocGet_append, h]

theorem optEntry_get_self (ps : Props) (k : String) :
    assocGet (optEntry ps k) k = lookupProp ps k := by
  unfold optEntry
  cases h : lookupProp ps k with
  | none => simp [assocGet_nil]
  | some v =>
    rw [assocGet_cons]
    simp

theorem optEntry_get_other (ps : Props) (k k' : String) (h : k ≠ k') :
    assocGet (optEntry ps k) k' = none := by
  unfold optEntry
  cases hv : lookupProp ps k with
  | none => simp [assocGet_nil]
  | some v =>
    rw [assocGet_cons]
    have hf : (k == k') = false := by simpa [beq_eq_false_iff_ne] using h
    simp [hf, assocGet_nil]

theorem lookupProp_identifying_id (ps : Props) :
    lookupProp (identifyingPropsOf ps) "id" = lookupProp ps "id" := by
  unfold identifyingPropsOf
  show assocGet _ _ = _
  cases h : lookupProp ps "id" with
  | some v => rw [assocGet_append_of_some _ (by rw [optEntry_get_self, h])]
  | none =>
    rw [assocGet_append_of_none _ (by rw [optEntry_get_self, h])]
    rw [assocGet_append_of_none _ (optEntry_get_other ps "num" "id" (by decide))]
    rw [assocGet_append_of_none _ (optEntry_get_other ps "index" "id" (by decide))]
    rw [assocGet_append_of_none _ (optEntry_get_other ps "value" "id" (by decide))]
    rw [assocGet_append_of_none _ (optEntry_get_other ps "name" "id" (by decide))]
    rw [optEntry_get_other ps "className" "id" (by decide)]

theorem lookupProp_identifying_num (ps : Props) :
    lookupProp (identifyingPropsOf ps) "num" = lookupProp ps "num" := by
  unfold identifyingPropsOf
  show assocGet _ _ = _
  rw [assocGet_append_of_none _ (optEntry_get_other ps "id" "num" (by decide))]
  cases h : lookupProp ps "num" with
  | some v => rw [assocGet_append_of_some _ (by rw [optEntry_get_self, h])]
  | none =>
    rw [assocGet_append_of_none _ (by rw [optEntry_get_self, h])]
    rw [assocGet_append_of_none _ (optEntry_get_other ps "index" "num" (by decide))]
    rw [assocGet_append_of_none _ (optEntry_get_other ps "value" "num" (by decide))]
    rw [assocGet_append_of_none _ (optEntry_get_other ps "name" "num" (by decide))]
    rw [optEntry_get_other ps "className" "num" (by decide)]

theorem lookupProp_identifying_index (ps : Props) :
    lookupProp (identifyingPropsOf ps) "index" = lookupProp ps "index" := by
  unfold identifyingPropsOf
  show assocGet _ _ = _
  rw [assocGet_append_of_none _ (optEntry_get_other ps "id" "index" (by decide))]
  rw [assocGet_append_of_none _ (optEntry_get_other ps "num" "index" (by decide))]
  cases h : lookupProp ps "index" with
  | some v => rw [assocGet_append_of_some _ (by rw [optEntry_get_self, h])]
  | none =>
    rw [assocGet_append_of_none _ (by rw [optEntry_get_self, h])]
    rw [assocGet_append_of_none _ (optEntry_get_other ps "value" "index" (by decide))]
    rw [assocGet_append_of_none _ (optEntry_get_other ps "name" "index" (by decide))]
    rw [optEntry_get_other ps "className" "index" (by decide)]

theorem lookupProp_identifying_key (ps : Props) :
    lookupProp (identifyingPropsOf ps) "key" = none := by
  unfold identifyingPropsOf
  show assocGet _ _ = _
  rw [assocGet_append_of_none _ (optEntry_get_other ps "id" "key" (by decide))]
  rw [assocGet_append_of_none _ (optEntry_get_other ps "num" "key" (by decide))]
  rw [assocGet_append_of_none _ (optEntry_get_other ps "index" "key" (by decide))]
  rw [assocGet_append_of_none _ (optEntry_get_other ps "value" "key" (by decide))]
  rw [assocGet_append_of_none _ (optEntry_get_other ps "name" "key" (by decide))]
  rw [optEntry_get_other ps "className" "key" (by decide)]

/-- C3 counterexample: a node carrying a `key` prop (and an `onClick`
handler) with no `num`/`index`/`id` props and no repeated instance.  The
claim requires semanticId `[key=k1]`, but the extractor produces the
empty semanticId, because `key` is not among the captured identifying
props and the source's `identifyingProps.key` test can never succeed. -/
theorem c3_semanticId_key_counterexample :
    (createActionRegistry keyFiber).map (fun kv => kv.2.semanticId) = [""] ∧
    lookupProp (propsSourceOf
        (some [("key", PropVal.pstr "k1"), ("onClick", PropVal.pfunc "f" "() => 0")]) none none)
        "key" = some (PropVal.pstr "k1") ∧
    ("" : String) ≠ "[key=k1]" ∧
    semanticIdOf (identifyingPropsOf [("id", PropVal.pstr "")]) 0 = "" ∧
    ("" : String) ≠ "[id=]" := by
  refine ⟨by decide, by decide, by decide, by decide, by decide⟩

/-- C3 (amended): the semanticId precedence as the code implements it —
a defined `num` prop yields `[num=value]`; else a defined `index` prop
yields `[index=value]`; else a truthy `id` prop yields `[id=value]`;
the `key` branch is dead code (`key` is never captured into the
identifying props, so a `key` prop never contributes); else a repeated
instance yields `[instance=n]`; else the semanticId is empty. -/
theorem c3_semanticId_precedence (ps : Props) (n : Nat) :
    lookupProp (identifyingPropsOf ps) "key" = none ∧
    (∀ v, lookupProp ps "num" = some v →
      semanticIdOf (identifyingPropsOf ps) n = "[num=" ++ jsPropString v ++ "]") ∧
    (lookupProp ps "num" = none → ∀ v, lookupProp ps "index" = some v →
      semanticIdOf (identifyingPropsOf ps) n = "[index=" ++ jsPropString v ++ "]") ∧
    (lookupProp ps "num" = none → lookupProp ps "index" = none →
      ∀ v, lookupProp ps "id" = some v → truthy v = true →
      semanticIdOf (identifyingPropsOf ps) n = "[id=" ++ jsPropString v ++ "]") ∧
    (lookupProp ps "num" = none → lookupProp ps "index" = none →
      (lookupProp ps "id" = none ∨ ∃ v, lookupProp ps "id" = some v ∧ truthy v = false) →
      semanticIdOf (identifyingPropsOf ps) n =
        (if 0 < n then "[instance=" ++ jsNatString n ++ "]" else "")) := by
  refine ⟨lookupProp_identifying_key ps, ?_, ?_, ?_, ?_⟩
  · intro v hv
    unfold semanticIdOf
    rw [lookupProp_identifying_num, hv]
  · intro hnum v hv
    unfold semanticIdOf
    rw [lookupProp_identifying_num, hnum, lookupProp_identifying_index, hv]
  · intro hnum hidx v hv htr
    unfold semanticIdOf
    rw [lookupProp_identifying_num, hnum, lookupProp_identifying_index, hidx,
      lookupProp_identifying_id, hv]
    simp [htr]
  · intro hnum hidx hid
    unfold semanticIdOf
    rw [lookupProp_identifying_num, hnum, lookupProp_identifying_index, hidx,
      lookupProp_identifying_id]
    rcases hid with hid | ⟨v, hv, htr⟩
    · rw [hid]
      unfold semanticIdKeyBranch
      rw [lookupProp_identifying_key]
    · rw [hv]
      simp only [htr, Bool.false_eq_true, if_false]
      unfold semanticIdKeyBranch
      rw [lookupProp_identifying_key]

/-- C3 witness: the amended theorem applied at concrete inputs — a `num`
prop wins, and with no identifying props a repeated instance number is
used. -/
theorem c3_semanticId_precedence_witness :
    semanticIdOf (identifyingPropsOf [("num", PropVal.pnum 7)]) 0
        = "[num=" ++ jsPropString (PropVal.pnum 7) ++ "]" ∧
    semanticIdOf (identifyingPropsOf []) 2
        = (if 0 < 2 then "[instance=" ++ jsNatString 2 ++ "]" else "") :=
  ⟨(c3_semanticId_precedence [("num", PropVal.pnum 7)] 0).2.1 (PropVal.pnum 7) (by decide),
   (c3_semanticId_precedence [] 2).2.2.2.2 (by decide) (by decide) (Or.inl (by decide))⟩

/-! ### Claim C7 — instance disambiguation in paths -/

/-- C7: the first occurrence of a (path prefix, component name) pair is
labeled with the bare name and the n-th later occurrence with `name[n]`
(n the zero-based occurrence index beyond the first); each node is
labeled with the current occurrence count of its (prefix, name) key and
bumps that count by one; and two sibling Row nodes under the same parent
receive paths ending in `Row` and `Row[1]`. -/
theorem c7_path_disambiguation :
    (∀ name : String, instanceIdentifier name 0 = name) ∧
    (∀ (name : String) (n : Nat), 0 < n →
      instanceIdentifier name n = name ++ "[" ++ jsNatString n ++ "]") ∧
    (∀ et p mp pp path st,
      (processNode et p mp pp path st).2 =
        path ++ [instanceIdentifier (displayNameX et)
          ((countsGet st.counts (joinSep ">" path ++ ">" ++ displayNameX et)).getD 0)] ∧
      countsGet (processNode et p mp pp path st).1.counts
          (joinSep ">" path ++ ">" ++ displayNameX et)
        = some ((countsGet st.counts (joinSep ">" path ++ ">" ++ displayNameX et)).getD 0 + 1)) ∧
    (createActionRegistry rowFiber).map (fun kv => kv.2.path) = ["App > Row", "App > Row[1]"] := by
  refine ⟨fun name => rfl, ?_, ?_, by decide⟩
  · intro name n hn
    unfold instanceIdentifier
    simp [hn]
  · intro et p mp pp path st
    constructor
    · unfold processNode
      simp only [Nat.add_sub_cancel]
    · unfold processNode
      simp only [Nat.add_sub_cancel]
      exact assocGet_assocSet_self _ _ _

/-- C7 witness: the general labeling facts applied at a concrete name
and occurrence index. -/
theorem c7_path_disambiguation_witness :
    instanceIdentifier "Row" 1 = "Row" ++ "[" ++ jsNatString 1 ++ "]" :=
  c7_path_disambiguation.2.1 "Row" 1 (by decide)

/-! ### Claim C6 — action ids dense and pairwise distinct -/

theorem actionIdName_inj : Function.Injective actionIdName := by
  intro m n h
  unfold actionIdName at h
  have hd : ("action_" ++ jsNatString m).data = ("action_" ++ jsNatString n).data := by rw [h]
  rw [String.data_append, String.data_append] at hd
  have : (jsNatString m).data = (jsNatString n).data := List.append_cancel_left hd
  exact jsNatString_inj m n (String.ext this)

/-- Ids `action_s, action_(s+1), ..., action_(s+k-1)`. -/
def idsFrom : Nat → Nat → List String
  | _, 0 => []
  | s, k + 1 => actionIdName s :: idsFrom (s + 1) k

theorem idsFrom_append (k1 : Nat) : ∀ (s k2 : Nat),
    idsFrom s (k1 + k2) = idsFrom s k1 ++ idsFrom (s + k1) k2 := by
  induction k1 with
  | zero => intro s k2; simp [idsFrom]
  | succ k1 ih =>
    intro s k2
    have h1 : k1 + 1 + k2 = (k1 + k2) + 1 := by omega
    rw [h1]
    show actionIdName s :: idsFrom (s + 1) (k1 + k2) = _
    rw [ih (s + 1) k2]
    have h2 : s + 1 + k1 = s + (k1 + 1) := by omega
    rw [h2]
    rfl

theorem idsFrom_length (k : Nat) : ∀ s, (idsFrom s k).length = k := by
  induction k with
  | zero => intro s; rfl
  | succ k ih => intro s; simp [idsFrom, ih (s + 1)]

theorem idsFrom_eq_range_map (k : Nat) : ∀ s,
    idsFrom s k = (List.range k).map (fun i => actionIdName (s + i)) := by
  induction k with
  | zero => intro s; simp [idsFrom]
  | succ k ih =>
    intro s
    rw [List.range_succ_eq_map]
    show actionIdName s :: idsFrom (s + 1) k = _
    rw [List.map_cons, List.map_map, ih (s + 1)]
    simp only [Nat.add_zero]
    congr 1
    apply List.map_congr_left
    intro i _
    simp only [Function.comp_apply]
    congr 1
    omega

theorem extractActionsStep_cases (cn sid pstr : String) (ip : Props)
    (n : Nat) (reg : ActionRegistry) (kv : String × PropVal) :
    extractActionsStep cn sid pstr ip (n, reg) kv = (n, reg) ∨
    ∃ e : ActionEntry, extractActionsStep cn sid pstr ip (n, reg) kv
        = (n + 1, reg ++ [(actionIdName n, e)]) := by
  unfold extractActionsStep
  cases kv.2 with
  | pfunc fname fsrc =>
    by_cases hs : jsStartsWith kv.1 "on"
    · right
      refine ⟨{ id := actionIdName n, component := cn, event := kv.1, path := pstr,
                semanticId := sid, identifyingProps := ip,
                description := mkDescription kv.1 cn sid pstr, execName := fname,
                execSrc := fsrc, metadataFunctionName := jsOrStr fname "anonymous" }, ?_⟩
      simp [hs]
    · left
      simp [hs]
  | pstr s => left; rfl
  | pnum m => left; rfl
  | pbool b => left; rfl
  | pnull => left; rfl
  | pobj c ks => left; rfl

theorem extractActions_fold (cn sid pstr : String) (ip : Props) (ps : Props) :
    ∀ (n : Nat) (reg : ActionRegistry),
      ∃ k, (ps.foldl (extractActionsStep cn sid pstr ip) (n, reg)).1 = n + k ∧
        (ps.foldl (extractActionsStep cn sid pstr ip) (n, reg)).2.map Prod.fst
          = reg.map Prod.fst ++ idsFrom n k := by
  induction ps with
  | nil => intro n reg; exact ⟨0, by simp, by simp [idsFrom]⟩
  | cons kv ps ih =>
    intro n reg
    rw [List.foldl_cons]
    rcases extractActionsStep_cases cn sid pstr ip n reg kv with h | ⟨e, h⟩
    · rw [h]
      exact ih n reg
    · rw [h]
      obtain ⟨k, h1, h2⟩ := ih (n + 1) (reg ++ [(actionIdName n, e)])
      refine ⟨k + 1, by omega, ?_⟩
      rw [h2, List.map_append]
      have hc : idsFrom n (k + 1) = actionIdName n :: idsFrom (n + 1) k := rfl
      rw [hc]
      simp

theorem processNode_ids (et : ElemType) (p mp pp : Option Props) (path : List String)
    (st : ExtractState) :
    ∃ k, (processNode et p mp pp path st).1.nextId = st.nextId + k ∧
      (processNode et p mp pp path st).1.registry.map Prod.fst
        = st.registry.map Prod.fst ++ idsFrom st.nextId k := by
  unfold processNode
  exact extractActions_fold _ _ _ _ _ st.nextId st.registry

theorem extractChain_ids (f : Fiber) : ∀ (path : List String) (st : ExtractState),
    ∃ k, (extractChain f path st).nextId = st.nextId + k ∧
      (extractChain f path st).registry.map Prod.fst
        = st.registry.map Prod.fst ++ idsFrom st.nextId k := by
  induction f with
  | nil =>
    intro path st
    refine ⟨0, by simp [extractChain], by simp [extractChain, idsFrom]⟩
  | node et p mp pp child sib ihc ihs =>
    intro path st
    obtain ⟨k0, h01, h02⟩ := processNode_ids et p mp pp path st
    obtain ⟨k1, h11, h12⟩ := ihc (processNode et p mp pp path st).2 (processNode et p mp pp path st).1
    obtain ⟨k2, h21, h22⟩ :=
      ihs path (extractChain child (processNode et p mp pp path st).2 (processNode et p mp pp path st).1)
    refine ⟨k0 + k1 + k2, ?_, ?_⟩
    · show (extractChain sib path _).nextId = _
      rw [h21, h11, h01]
      omega
    · show (extractChain sib path _).registry.map Prod.fst = _
      rw [h22, h12, h02, h11, h01]
      rw [List.append_assoc, List.append_assoc]
      congr 1
      have e1 : k0 + k1 + k2 = k0 + (k1 + k2) := by omega
      rw [e1, idsFrom_append k0 st.nextId (k1 + k2), idsFrom_append k1 (st.nextId + k0) k2]

/-- C6: within one indexing pass the generated action ids are dense from
`action_0` — the registry's key sequence is exactly
`action_0, ..., action_(k-1)` in discovery order — and pairwise
distinct. -/
theorem c6_action_ids_dense_distinct (f : Fiber) :
    (createActionRegistry f).map Prod.fst
      = (List.range (createActionRegistry f).length).map actionIdName ∧
    ((createActionRegistry f).map Prod.fst).Nodup := by
  have key : ∃ k, (createActionRegistry f).map Prod.fst = idsFrom 0 k := by
    cases f with
    | nil => exact ⟨0, rfl⟩
    | node et p mp pp child sib =>
      obtain ⟨k, h1, h2⟩ :=
        extractChain_ids (Fiber.node et p mp pp child Fiber.nil) []
          { nextId := 0, counts := [], registry := [] }
      exact ⟨k, by simpa [createActionRegistry] using h2⟩
  obtain ⟨k, hk⟩ := key
  have hlen : (createActionRegistry f).length = k := by
    have := congrArg List.length hk
    simpa [idsFrom_length] using this
  constructor
  · rw [hk, hlen, idsFrom_eq_range_map]
    apply List.map_congr_left
    intro i _
    simp
  · rw [hk, idsFrom_eq_range_map]
    refine List.Nodup.map ?_ (List.nodup_range k)
    intro a b hab
    have := actionIdName_inj hab
    omega

/-! ### Claim C9 — registration context map operations -/

/-- C9: registering an action whose id is already present overwrites the
prior entry (last-registration-wins) while leaving every other entry
unchanged — lookups of other ids are unaffected and all entries with
other ids stay in the map — and unregistering an absent id is a no-op
leaving the map equal to its prior value. -/
theorem c9_registration_context (m : ActionMap) (a : AiAction) (k : String) :
    mapGet (registerAction m a) a.id = some a ∧
    (k ≠ a.id → mapGet (registerAction m a) k = mapGet m k) ∧
    (∀ p ∈ m, p.1 ≠ a.id → p ∈ registerAction m a) ∧
    (mapGet m k = none → unregisterAction m k = m) := by
  refine ⟨?_, ?_, ?_, ?_⟩
  · exact assocGet_assocSet_self m a.id a
  · intro h
    exact assocGet_assocSet_other m a.id k a h
  · intro p hp hne
    exact mem_assocSet_of_ne m a.id a p hp hne
  · intro h
    exact assocDelete_absent m k h

/-- C9 witness: duplicate registration overwrites, another entry's
lookup is untouched, and unregistering an absent id returns the map
unchanged, at a concrete two-entry map. -/
theorem c9_registration_context_witness :
    mapGet (registerAction [("x", ⟨"x", "old"⟩), ("y", ⟨"y", "other"⟩)] ⟨"x", "new"⟩) "x"
        = some ⟨"x", "new"⟩ ∧
    mapGet (registerAction [("x", ⟨"x", "old"⟩), ("y", ⟨"y", "other"⟩)] ⟨"x", "new"⟩) "y"
        = mapGet [("x", ⟨"x", "old"⟩), ("y", ⟨"y", "other"⟩)] "y" ∧
    unregisterAction [("x", ⟨"x", "old"⟩), ("y", ⟨"y", "other"⟩)] "zz"
        = [("x", ⟨"x", "old"⟩), ("y", ⟨"y", "other"⟩)] :=
  ⟨(c9_registration_context [("x", ⟨"x", "old"⟩), ("y", ⟨"y", "other"⟩)] ⟨"x", "new"⟩ "x").1,
   (c9_registration_context [("x", ⟨"x", "old"⟩), ("y", ⟨"y", "other"⟩)] ⟨"x", "new"⟩ "y").2.1
     (by decide),
   (c9_registration_context [("x", ⟨"x", "old"⟩), ("y", ⟨"y", "other"⟩)] ⟨"x", "new"⟩ "zz").2.2.2
     (by decide)⟩

/-! ### Claim C2 — local scoring strategy (corrected) -/

/-- Maximum score over the declared actions (0 when there are none). -/
def maxScore (ws : List String) (actions : List AiAction) : Nat :=
  actions.foldr (fun a m => max (scoreOf ws a) m) 0

theorem maxScore_cons (ws : List String) (a : AiAction) (l : List AiAction) :
    maxScore ws (a :: l) = max (scoreOf ws a) (maxScore ws l) := rfl

theorem le_maxScore (ws : List String) (l : List AiAction) :
    ∀ b ∈ l, scoreOf ws b ≤ maxScore ws l := by
  induction l with
  | nil => intro b hb; simp at hb
  | cons a l ih =>
    intro b hb
    rw [maxScore_cons]
    rcases List.mem_cons.mp hb with rfl | hb
    · omega
    · have := ih b hb
      omega

theorem maxScore_exists (ws : List String) (l : List AiAction) (h : 0 < maxScore ws l) :
    ∃ a ∈ l, scoreOf ws a = maxScore ws l := by
  induction l with
  | nil => simp [maxScore] at h
  | cons a l ih =>
    rw [maxScore_cons] at h ⊢
    by_cases hle : maxScore ws l ≤ scoreOf ws a
    · exact ⟨a, by simp, by omega⟩
    · have h' : 0 < maxScore ws l := by omega
      obtain ⟨b, hb, hs⟩ := ih h'
      exact ⟨b, by simp [hb], by omega⟩

theorem maxScore_zero_of_all_zero (ws : List String) (l : List AiAction)
    (h : ∀ b ∈ l, scoreOf ws b = 0) : maxScore ws l = 0 := by
  induction l with
  | nil => rfl
  | cons a l ih =>
    rw [maxScore_cons, h a (by simp), ih (fun b hb => h b (by simp [hb]))]
    simp

theorem bestFold_spec (ws : List String) (l : List AiAction) :
    ∀ (b0 : Option AiAction) (m0 : Nat),
      (l.foldl (bestStep ws) (b0, m0)).2 = max m0 (maxScore ws l) ∧
      (maxScore ws l ≤ m0 → (l.foldl (bestStep ws) (b0, m0)).1 = b0) ∧
      (m0 < maxScore ws l →
        (l.foldl (bestStep ws) (b0, m0)).1
          = l.find? (fun a => scoreOf ws a == maxScore ws l)) := by
  induction l with
  | nil =>
    intro b0 m0
    refine ⟨by simp [maxScore], fun _ => rfl, fun h => absurd h (by simp [maxScore])⟩
  | cons a l ih =>
    intro b0 m0
    rw [List.foldl_cons]
    have hstep : bestStep ws (b0, m0) a =
        if scoreOf ws a > m0 then (some a, scoreOf ws a) else (b0, m0) := rfl
    by_cases hs : scoreOf ws a > m0
    · rw [hstep, if_pos hs]
      obtain ⟨ih1, ih2, ih3⟩ := ih (some a) (scoreOf ws a)
      refine ⟨?_, ?_, ?_⟩
      · rw [ih1, maxScore_cons]
        omega
      · intro hM
        rw [maxScore_cons] at hM
        omega
      · intro _
        rw [maxScore_cons, List.find?_cons]
        by_cases hle : maxScore ws l ≤ scoreOf ws a
        · have hM : max (scoreOf ws a) (maxScore ws l) = scoreOf ws a := by omega
          rw [hM]
          simp only [beq_self_eq_true, cond_true]
          exact ih2 hle
        · have hM : max (scoreOf ws a) (maxScore ws l) = maxScore ws l := by omega
          rw [hM]
          have hne : (scoreOf ws a == maxScore ws l) = false := by
            simp only [beq_eq_false_iff_ne, ne_eq]
            omega
          rw [hne]
          simp only [cond_false]
          exact ih3 (by omega)
    · rw [hstep, if_neg hs]
      obtain ⟨ih1, ih2, ih3⟩ := ih b0 m0
      refine ⟨?_, ?_, ?_⟩
      · rw [ih1, maxScore_cons]
        omega
      · intro hM
        rw [maxScore_cons] at hM
        exact ih2 (by omega)
      · intro hM
        rw [maxScore_cons] at hM ⊢
        have hM2 : m0 < maxScore ws l := by omega
        have hMval : max (scoreOf ws a) (maxScore ws l) = maxScore ws l := by omega
        rw [hMval, List.find?_cons]
        have hne : (scoreOf ws a == maxScore ws l) = false := by
          simp only [beq_eq_false_iff_ne, ne_eq]
          omega
        rw [hne]
        simp only [cond_false]
        exact ih3 hM2

def apos : String := (Char.ofNat 39).toString

/-- The sample declared action deleting the groceries task. -/
def groceriesAction : AiAction := ⟨"1", "delete task " ++ apos ++ "Buy groceries" ++ apos⟩

/-- The sample declared action deleting the dog-walk task. -/
def walkDogAction : AiAction := ⟨"2", "delete task " ++ apos ++ "Walk the dog" ++ apos⟩

/-- C2 counterexample: the claim asserts `"xyz123"` yields no match
against any action set, yet against an action whose description contains
`xyz123` the code matches it and executes it, not reporting the
don't-know status. -/
theorem c2_xyz_counterexample :
    (findAndExecuteAction [⟨"a", "run xyz123 job"⟩] ⟨"xyz123", ""⟩).2
        = some ⟨"a", "run xyz123 job"⟩ ∧
    (findAndExecuteAction [⟨"a", "run xyz123 job"⟩] ⟨"xyz123", ""⟩).1.status ≠ dontKnowStatus := by
  refine ⟨by decide, by decide⟩

/-- C2 (amended): for every non-blank query the query is lower-cased and
split on whitespace; each action's score counts the query tokens
(repeats counted) occurring as substrings of its lower-cased
description; a zero maximum yields no match, fixed status and untouched
query; a positive maximum executes the first action attaining the
maximum score (first-max-wins on ties: its score is positive, no action
scores higher, and it is the `find?`-first maximiser), sets the status
from its description and clears the query.  The query
`"delete groceries"` against the two sample task actions selects the
groceries one; `"xyz123"` yields no match against any action set none of
whose lower-cased descriptions contains `"xyz123"` as a substring. -/
theorem c2_local_scoring (actions : List AiAction) (st : LocalState)
    (h : jsTrim st.query ≠ "") :
    (maxScore (jsSplitWS (jsToLower st.query)) actions = 0 →
      findAndExecuteAction actions st = ({ query := st.query, status := dontKnowStatus }, none)) ∧
    (0 < maxScore (jsSplitWS (jsToLower st.query)) actions →
      ∃ a, findAndExecuteAction actions st
            = ({ query := "", status := executingStatus a.description }, some a) ∧
        actions.find? (fun x => scoreOf (jsSplitWS (jsToLower st.query)) x
            == maxScore (jsSplitWS (jsToLower st.query)) actions) = some a ∧
        0 < scoreOf (jsSplitWS (jsToLower st.query)) a ∧
        (∀ b ∈ actions, scoreOf (jsSplitWS (jsToLower st.query)) b
            ≤ scoreOf (jsSplitWS (jsToLower st.query)) a)) ∧
    (findAndExecuteAction [groceriesAction, walkDogAction] ⟨"delete groceries", ""⟩).2
        = some groceriesAction ∧
    (∀ acts : List AiAction,
      (∀ b ∈ acts, jsIncludes (jsToLower b.description) "xyz123" = false) →
      (findAndExecuteAction acts ⟨"xyz123", ""⟩).2 = none) := by
  obtain ⟨f1, f2, f3⟩ := bestFold_spec (jsSplitWS (jsToLower st.query)) actions none 0
  refine ⟨?_, ?_, by decide, ?_⟩
  · intro hM
    unfold findAndExecuteAction
    rw [if_neg h]
    simp only []
    rw [f2 (by omega)]
  · intro hM
    have hfind := f3 hM
    obtain ⟨a0, ha0, hsc⟩ := maxScore_exists _ _ hM
    have hissome : (actions.find? (fun x => scoreOf (jsSplitWS (jsToLower st.query)) x
        == maxScore (jsSplitWS (jsToLower st.query)) actions)).isSome := by
      rw [List.find?_isSome]
      exact ⟨a0, ha0, by simp [hsc]⟩
    obtain ⟨a, ha⟩ := Option.isSome_iff_exists.mp hissome
    refine ⟨a, ?_, ha, ?_, ?_⟩
    · unfold findAndExecuteAction
      rw [if_neg h]
      simp only []
      rw [hfind, ha]
    · have := List.find?_some ha
      have heq : scoreOf (jsSplitWS (jsToLower st.query)) a
          = maxScore (jsSplitWS (jsToLower st.query)) actions := by simpa using this
      omega
    · intro b hb
      have h1 := le_maxScore (jsSplitWS (jsToLower st.query)) actions b hb
      have := List.find?_some ha
      have heq : scoreOf (jsSplitWS (jsToLower st.query)) a
          = maxScore (jsSplitWS (jsToLower st.query)) actions := by simpa using this
      omega
  · intro acts hall
    have hz : ∀ b ∈ acts, scoreOf (jsSplitWS (jsToLower "xyz123")) b = 0 := by
      intro b hb
      have hws : jsSplitWS (jsToLower "xyz123") = ["xyz123"] := by decide
      rw [hws]
      simp [scoreOf, List.countP, List.countP.go, hall b hb]
    obtain ⟨g1, g2, g3⟩ := bestFold_spec (jsSplitWS (jsToLower "xyz123")) acts none 0
    have hM : maxScore (jsSplitWS (jsToLower "xyz123")) acts = 0 :=
      maxScore_zero_of_all_zero _ _ hz
    unfold findAndExecuteAction
    rw [if_neg (by decide)]
    simp only []
    rw [g2 (by omega)]

/-- C2 witness: the amended theorem applied at the sample actions —
`"delete groceries"` selects the groceries action and an unmatched query
leaves the query field untouched with the fixed status. -/
theorem c2_local_scoring_witness :
    (findAndExecuteAction [groceriesAction, walkDogAction] ⟨"delete groceries", ""⟩).2
        = some groceriesAction ∧
    findAndExecuteAction [groceriesAction, walkDogAction] ⟨"qqq", "s0"⟩
        = ({ query := "qqq", status := dontKnowStatus }, none) :=
  ⟨(c2_local_scoring [groceriesAction, walkDogAction] ⟨"delete groceries", ""⟩
      (by decide)).2.2.1,
   (c2_local_scoring [groceriesAction, walkDogAction] ⟨"qqq", "s0"⟩ (by decide)).1 (by decide)⟩

/-! ### Claims C1 and C10 — remote strategy resolution -/

/-- C1: on a successful HTTP response, JSON content yields the extracted
`actionId`/`parameters` (defaulting to `""` and `[]`), non-JSON content
falls back to the trimmed raw text with double quotes stripped as a
literal id; a non-empty id other than `"none"` that is present in the
registry has its handler invoked with the parameters (an invocation
exception is caught and reported as an execution-error status, success
reports the executing status); the literal `"none"` reports the
no-suitable-action status without invocation; any other id reports the
invalid-action-id status without invocation; and the loading state is
cleared on every path. -/
theorem c1_remote_resolution (registry : RemoteRegistry) (st : RemoteState)
    (content : Option LLMContent) (h : jsTrim st.query ≠ "") :
    (sendQueryToLLM registry st (.ok content)).1.loading = false ∧
    (∀ aid ps, extractActionId (some (.jsonOk aid ps)) = (aid.getD "", ps.getD [])) ∧
    (∀ s, extractActionId (some (.raw s)) = (removeDQuotes (jsTrim s), [])) ∧
    (∀ entry, lookupReg registry (extractActionId content).1 = some entry →
      (extractActionId content).1 ≠ "" → (extractActionId content).1 ≠ "none" →
      (sendQueryToLLM registry st (.ok content)).2
          = some ((extractActionId content).1, (extractActionId content).2) ∧
      (entry.run (extractActionId content).2 = Except.ok () →
        (sendQueryToLLM registry st (.ok content)).1.status
          = RStatus.executing (extractActionId content).1 (extractActionId content).2) ∧
      (∀ e, entry.run (extractActionId content).2 = Except.error e →
        (sendQueryToLLM registry st (.ok content)).1.status = RStatus.execError e)) ∧
    ((extractActionId content).1 = "none" →
      (sendQueryToLLM registry st (.ok content)).1.status = RStatus.noSuitable ∧
      (sendQueryToLLM registry st (.ok content)).2 = none) ∧
    ((extractActionId content).1 = "" ∨
        ((extractActionId content).1 ≠ "none" ∧
          lookupReg registry (extractActionId content).1 = none) →
      (sendQueryToLLM registry st (.ok content)).1.status = RStatus.invalidId ∧
      (sendQueryToLLM registry st (.ok content)).2 = none) := by
  refine ⟨?_, fun _ _ => rfl, fun _ => rfl, ?_, ?_, ?_⟩
  · unfold sendQueryToLLM
    rw [if_neg h]
    simp only []
    by_cases hc : (extractActionId content).1 ≠ "" ∧ (extractActionId content).1 ≠ "none" ∧
        (lookupReg registry (extractActionId content).1).isSome = true
    · rw [if_pos hc]
      obtain ⟨entry, hl⟩ := Option.isSome_iff_exists.mp hc.2.2
      rw [hl]
      simp only []
      cases hrun : entry.run (extractActionId content).2 with
      | ok u => rfl
      | error e => rfl
    · rw [if_neg hc]
      by_cases hn : (extractActionId content).1 = "none"
      · rw [if_pos hn]
      · rw [if_neg hn]
  · intro entry hl h1 h2
    have hc : (extractActionId content).1 ≠ "" ∧ (extractActionId content).1 ≠ "none" ∧
        (lookupReg registry (extractActionId content).1).isSome = true :=
      ⟨h1, h2, by rw [hl]; rfl⟩
    unfold sendQueryToLLM
    rw [if_neg h]
    simp only []
    rw [if_pos hc, hl]
    simp only []
    cases hrun : entry.run (extractActionId content).2 with
    | ok u =>
      cases u
      refine ⟨rfl, fun _ => rfl, fun e he => ?_⟩
      simp at he
    | error e0 =>
      refine ⟨rfl, fun hok => ?_, fun e he => ?_⟩
      · simp at hok
      · injection he with h3
        subst h3
        rfl
  · intro hn
    have hc : ¬ ((extractActionId content).1 ≠ "" ∧ (extractActionId content).1 ≠ "none" ∧
        (lookupReg registry (extractActionId content).1).isSome = true) := by
      intro hcon
      exact hcon.2.1 hn
    unfold sendQueryToLLM
    rw [if_neg h]
    simp only []
    rw [if_neg hc, if_pos hn]
    exact ⟨rfl, rfl⟩
  · intro hcase
    have hc : ¬ ((extractActionId content).1 ≠ "" ∧ (extractActionId content).1 ≠ "none" ∧
        (lookupReg registry (extractActionId content).1).isSome = true) := by
      rcases hcase with he | ⟨_, hnone⟩
      · intro hcon
        exact hcon.1 he
      · intro hcon
        rw [hnone] at hcon
        cases hcon.2.2
    have hn : (extractActionId content).1 ≠ "none" := by
      rcases hcase with he | ⟨hne, _⟩
      · rw [he]
        decide
      · exact hne
    unfold sendQueryToLLM
    rw [if_neg h]
    simp only []
    rw [if_neg hc, if_neg hn]
    exact ⟨rfl, rfl⟩

/-- A one-entry registry whose handler succeeds, for the remote-strategy
witnesses. -/
def demoRemoteRegistry : RemoteRegistry :=
  [("action_3", ⟨fun _ => Except.ok ()⟩)]

/-- C1 witness: the theorem applied at a concrete successful response —
content `{"actionId":"action_3","parameters":["hello"]}` with `action_3`
present invokes the handler with the single argument `"hello"` and
reports the executing status. -/
theorem c1_remote_resolution_witness :
    (sendQueryToLLM demoRemoteRegistry ⟨"say hello", RStatus.idle, false⟩
        (.ok (some (.jsonOk (some "action_3") (some [JVal.jstr "hello"]))))).2
      = some ("action_3", [JVal.jstr "hello"]) ∧
    (sendQueryToLLM demoRemoteRegistry ⟨"say hello", RStatus.idle, false⟩
        (.ok (some (.jsonOk (some "action_3") (some [JVal.jstr "hello"]))))).1.status
      = RStatus.executing "action_3" [JVal.jstr "hello"] ∧
    (sendQueryToLLM demoRemoteRegistry ⟨"say hello", RStatus.idle, false⟩
        (.ok (some (.jsonOk (some "none") none)))).1.status = RStatus.noSuitable :=
  ⟨((c1_remote_resolution demoRemoteRegistry ⟨"say hello", RStatus.idle, false⟩
      (some (.jsonOk (some "action_3") (some [JVal.jstr "hello"]))) (by decide)).2.2.2.1
      ⟨fun _ => Except.ok ()⟩ rfl (by decide) (by decide)).1,
   ((c1_remote_resolution demoRemoteRegistry ⟨"say hello", RStatus.idle, false⟩
      (some (.jsonOk (some "action_3") (some [JVal.jstr "hello"]))) (by decide)).2.2.2.1
      ⟨fun _ => Except.ok ()⟩ rfl (by decide) (by decide)).2.1 rfl,
   ((c1_remote_resolution demoRemoteRegistry ⟨"say hello", RStatus.idle, false⟩
      (some (.jsonOk (some "none") none)) (by decide)).2.2.2.2.1 rfl).1⟩

/-- C10: on every successful HTTP response whose body is read, the query
field is cleared before the action id is resolved — so it is cleared
even when the outcome is the literal `"none"`, an invalid or unknown id,
or an execution error, not only on successful invocation. -/
theorem c10_query_cleared_on_success (registry : RemoteRegistry) (st : RemoteState)
    (content : Option LLMContent) (h : jsTrim st.query ≠ "") :
    (sendQueryToLLM registry st (.ok content)).1.query = "" := by
  unfold sendQueryToLLM
  rw [if_neg h]
  simp only []
  by_cases hc : (extractActionId content).1 ≠ "" ∧ (extractActionId content).1 ≠ "none" ∧
      (lookupReg registry (extractActionId content).1).isSome = true
  · rw [if_pos hc]
    obtain ⟨entry, hl⟩ := Option.isSome_iff_exists.mp hc.2.2
    rw [hl]
    simp only []
    cases hrun : entry.run (extractActionId content).2 with
    | ok u => rfl
    | error e => rfl
  · rw [if_neg hc]
    by_cases hn : (extractActionId content).1 = "none"
    · rw [if_pos hn]
    · rw [if_neg hn]

/-- C10 witness: the theorem applied where no handler is invoked — the
response said `"none"` — and the query is still cleared. -/
theorem c10_query_cleared_on_success_witness :
    (sendQueryToLLM demoRemoteRegistry ⟨"do something", RStatus.idle, false⟩
        (.ok (some (.jsonOk (some "none") none)))).1.query = "" :=
  c10_query_cleared_on_success demoRemoteRegistry ⟨"do something", RStatus.idle, false⟩
    (some (.jsonOk (some "none") none)) (by decide)

/-! ### Claim C8 — debounce coalescing -/

/-- Every event of the list arrives strictly before the deadline pending
at that point, where each event re-arms the deadline to its own time
plus 100. -/
def timesOkFrom : Nat → List (Nat × List MutationRecord) → Prop
  | _, [] => True
  | d, e :: rest => e.1 < d ∧ timesOkFrom (e.1 + 100) rest

/-- Deadline pending after the last event of the list (starting from a
pending deadline `d`). -/
def lastDeadline : Nat → List (Nat × List MutationRecord) → Nat
  | d, [] => d
  | _, e :: rest => lastDeadline (e.1 + 100) rest

theorem simulateBatches_coalesce :
    ∀ (events : List (Nat × List MutationRecord)) (d : Nat),
      (∀ e ∈ events, shouldUpdateBatch e.2 = true) →
      timesOkFrom d events →
      simulateBatches events ⟨some d⟩ = [lastDeadline d events] := by
  intro events
  induction events with
  | nil => intro d _ _; rfl
  | cons e rest ih =>
    rcases e with ⟨t, b⟩
    intro d hq ht
    obtain ⟨h1, h2⟩ := ht
    show simulateBatches ((t, b) :: rest) ⟨some d⟩ = _
    unfold simulateBatches
    have hf : fireBefore t ⟨some d⟩ = ([], ⟨some d⟩) := by
      unfold fireBefore
      simp only []
      rw [if_neg (by omega)]
    rw [hf]
    simp only []
    have ho : observerCallback t b ⟨some d⟩ = ⟨some (t + 100)⟩ := by
      unfold observerCallback
      rw [if_pos (hq (t, b) (by simp))]
      rfl
    rw [ho]
    simp only [List.nil_append]
    exact ih (t + 100) (fun x hx => hq x (by simp [hx])) h2

theorem chain_timesOkFrom :
    ∀ (rest : List (Nat × List MutationRecord)) (x : Nat × List MutationRecord),
      List.Chain' (fun a b => a.1 < b.1 ∧ b.1 < a.1 + 100) (x :: rest) →
      timesOkFrom (x.1 + 100) rest := by
  intro rest
  induction rest with
  | nil => intro x _; trivial
  | cons y rest ih =>
    intro x hch
    rw [List.chain'_cons] at hch
    exact ⟨hch.1.2, ih y hch.2⟩

theorem lastDeadline_getLast :
    ∀ (l : List (Nat × List MutationRecord)) (d : Nat) (x : Nat × List MutationRecord),
      l.getLast? = some x → lastDeadline d l = x.1 + 100 := by
  intro l
  induction l with
  | nil => intro d x hx; cases hx
  | cons e rest ih =>
    intro d x hx
    cases rest with
    | nil =>
      simp only [List.getLast?_singleton, Option.some.injEq] at hx
      subst hx
      rfl
    | cons f rest2 =>
      rw [List.getLast?_cons_cons] at hx
      show lastDeadline (e.1 + 100) (f :: rest2) = x.1 + 100
      exact ih (e.1 + 100) x hx

/-- C8: a qualifying mutation always replaces any pending timer by a
single new one armed 100ms ahead (so at most one timer is ever pending),
and for every non-empty burst of qualifying mutation batches each
arriving within 100ms of the previous one, exactly one reindex pass
runs, scheduled 100ms after the last mutation of the burst. -/
theorem c8_debounce_coalescing :
    (∀ (t : Nat) (s : SchedState), (debouncedUpdate t s).pending = some (t + 100)) ∧
    (∀ (events : List (Nat × List MutationRecord)) (x : Nat × List MutationRecord),
      (∀ e ∈ events, shouldUpdateBatch e.2 = true) →
      List.Chain' (fun a b => a.1 < b.1 ∧ b.1 < a.1 + 100) events →
      events.getLast? = some x →
      simulateBatches events ⟨none⟩ = [x.1 + 100]) := by
  refine ⟨fun t s => rfl, ?_⟩
  intro events x hq hch hlast
  cases events with
  | nil => cases hlast
  | cons e rest =>
    rcases e with ⟨t, b⟩
    show simulateBatches ((t, b) :: rest) ⟨none⟩ = _
    unfold simulateBatches
    have hf : fireBefore t ⟨none⟩ = ([], ⟨none⟩) := rfl
    rw [hf]
    simp only []
    have ho : observerCallback t b ⟨none⟩ = ⟨some (t + 100)⟩ := by
      unfold observerCallback
      rw [if_pos (hq (t, b) (by simp))]
      rfl
    rw [ho]
    simp only [List.nil_append]
    rw [simulateBatches_coalesce rest (t + 100) (fun y hy => hq y (by simp [hy]))
      (chain_timesOkFrom rest (t, b) hch)]
    cases rest with
    | nil =>
      simp only [List.getLast?_singleton, Option.some.injEq] at hlast
      subst hlast
      rfl
    | cons f rest2 =>
      rw [List.getLast?_cons_cons] at hlast
      rw [lastDeadline_getLast (f :: rest2) (t + 100) x hlast]

/-- C8 witness: a burst of three qualifying child-list mutations at
times 0, 50 and 120 (each within 100ms of the previous) produces exactly
one reindex pass, at time 220. -/
theorem c8_debounce_coalescing_witness :
    simulateBatches [(0, [MutationRecord.childList]), (50, [MutationRecord.childList]),
        (120, [MutationRecord.childList])] ⟨none⟩ = [220] :=
  c8_debounce_coalescing.2
    [(0, [MutationRecord.childList]), (50, [MutationRecord.childList]),
      (120, [MutationRecord.childList])]
    (120, [MutationRecord.childList]) (by decide)
    (by
      rw [List.chain'_cons, List.chain'_cons]
      exact ⟨⟨by decide, by decide⟩, ⟨by decide, by decide⟩, List.chain'_singleton _⟩)
    (by decide)

end Langact
